import Mathlib

/-!
Shallow embedding of the oclip argument-definition and binding engine
(src/args.ts) and the command construction / dispatch logic
(src/command.ts), together with proofs about the frozen claims.

JavaScript runtime values that flow through the binder are modelled by
the inductive type JSVal; the caller-supplied token array is a
List JSVal, with reads past the end of a JS array giving undefined and
writes past the end extending the array (holes read as undefined).
-/

/-- A JavaScript runtime value, as far as the binder observes it:
tokens are strings, parse functions and default suppliers may produce
numbers, booleans, arrays, null or undefined. -/
inductive JSVal : Type where
  | undefined : JSVal
  | null : JSVal
  | bool (b : Bool) : JSVal
  | num (n : Int) : JSVal
  | str (s : String) : JSVal
  | arr (xs : List JSVal) : JSVal

/-- Strict equality against undefined, as in the source test
for a default supplier resolving to no value. -/
def JSVal.isUndefined : JSVal → Bool
  | .undefined => true
  | _ => false

/-- True exactly on array values. -/
def JSVal.isArr : JSVal → Bool
  | .arr _ => true
  | _ => false

/-- JavaScript truthiness: undefined, null, false, 0 and the empty
string are falsy; every other value (including any array) is truthy. -/
def truthy : JSVal → Bool
  | .undefined => false
  | .null => false
  | .bool b => b
  | .num n => n != 0
  | .str s => s != ""
  | .arr _ => true

/-- Read index i of a JS array: past-the-end reads give undefined. -/
def jsGet (l : List JSVal) (i : Nat) : JSVal :=
  l.getD i .undefined

/-- Write index i of a JS array: writing past the end extends the
array, with the skipped positions becoming holes that read back as
undefined. -/
def jsSet (l : List JSVal) (i : Nat) (v : JSVal) : List JSVal :=
  if i < l.length then l.set i v
  else l ++ List.replicate (i - l.length) JSVal.undefined ++ [v]

/-- One positional argument slot (interface Arg in src/args.ts).
Display-only metadata (description, hidden, toString) is omitted: no
claim observes it. The parse function may fail, modelling a user parse
function that throws; its message is carried opaquely. The choices
field carries the resolved list of allowed raw tokens (the source also
accepts a sync or async supplier, resolved at bind time); the default
field carries the value the normalized async default supplier resolves
to, with none meaning the spec has no default supplier. -/
structure ArgSpec where
  id : Int := -1
  name : Option String := none
  required : Bool
  rest : Bool := false
  parse : JSVal → Except String JSVal := fun v => .ok v
  choices : Option (List String) := none
  default : Option JSVal := none

/-- The errors the engine can raise (src/args.ts throw sites, the
construction checks in src/command.ts, and the collaborators at the
exec boundary). The version signal carries its rendered text:
modelled from the spec, since src/version.ts is not in the sources. -/
inductive OErr : Type where
  | choicesError (input : JSVal) (choices : List String) : OErr
  | requiredArgs (specs : List ArgSpec) : OErr
  | unexpectedArgs (vals : List JSVal) : OErr
  | defError (msg : String) : OErr
  | typeError (msg : String) : OErr
  | versionSignal (rendered : String) : OErr
  | userThrown (msg : String) : OErr

def OErr.isRequiredArgs : OErr → Bool
  | .requiredArgs _ => true
  | _ => false

def OErr.isUnexpectedArgs : OErr → Bool
  | .unexpectedArgs _ => true
  | _ => false

/-- True when an optional outcome is not the unexpected-arguments
error: either no error, or an error of a different kind. -/
def notUnexpected : Option OErr → Bool
  | some e => !e.isUnexpectedArgs
  | none => true

/-- The three-state walk of validateNothingRequiredAfterOptional. -/
inductive VState : Type where
  | required | optional | rest
deriving DecidableEq

/-- The loop body and recursion of validateNothingRequiredAfterOptional
(src/args.ts lines 114-130): starting in the required state, a rest
spec moves to the rest state, a non-required spec moves to the optional
state; in the optional state a required spec is an error and a rest
spec moves to the rest state; any spec seen in the rest state is an
error. -/
def validateState : VState → List ArgSpec → Except String Unit
  | _, [] => .ok ()
  | .required, d :: ds =>
      if d.rest then validateState .rest ds
      else if !d.required then validateState .optional ds
      else validateState .required ds
  | .optional, d :: ds =>
      if d.required then .error "required arguments may not follow optional arguments"
      else if d.rest then validateState .rest ds
      else validateState .optional ds
  | .rest, _ :: _ => .error "rest args must be the last ones defined"

def validateNothingRequiredAfterOptional (defs : List ArgSpec) : Except String Unit :=
  validateState .required defs

/-- src/args.ts line 135. -/
def validateArgDefs (argDefs : List ArgSpec) : Except String Unit :=
  validateNothingRequiredAfterOptional argDefs

/-- src/args.ts line 133: the reduce computing the maximum accepted
token count, with -1 as the unbounded sentinel. -/
def numOptionalArgs (args : List ArgSpec) : Int :=
  args.foldl (fun total arg => if arg.rest then -1 else total + 1) 0

/-- src/args.ts lines 108-112: stamp each spec with its index. -/
def addIdAux : Nat → List ArgSpec → List ArgSpec
  | _, [] => []
  | i, d :: ds => { d with id := (i : Int) } :: addIdAux (i + 1) ds

def addIdToArgs (args : List ArgSpec) : List ArgSpec :=
  addIdAux 0 args

/-- The choices check of src/args.ts lines 147-152: when a choices list
is present (a present empty list is still truthy in JS and is checked),
the raw input must be a member; membership uses strict equality, so a
non-string input never matches. -/
def choicesCheck (choices : Option (List String)) (input : JSVal) : Option OErr :=
  match choices with
  | none => none
  | some cs =>
    match input with
    | .str s => if s ∈ cs then none else some (.choicesError (.str s) cs)
    | v => some (.choicesError v cs)

/-- The first loop of validateArgs (src/args.ts lines 145-154) over
defs.slice(0, args.length): read the raw value at def.id, check
choices, then overwrite that position with the parsed value. A throw
from the choices check or the parse function aborts the loop, leaving
the earlier overwrites in place. -/
def parseLoop : List ArgSpec → List JSVal → List JSVal × Option OErr
  | [], args => (args, none)
  | d :: ds, args =>
    let input := jsGet args d.id.toNat
    match choicesCheck d.choices input with
    | some e => (args, some e)
    | none =>
      match d.parse input with
      | .error m => (args, some (.userThrown m))
      | .ok v => parseLoop ds (jsSet args d.id.toNat v)

/-- The second loop of validateArgs (src/args.ts lines 156-162) over
defs.slice(args.length): a spec with a default supplier whose value is
not undefined fills its position (extending the array); otherwise the
position is left as it is. -/
def fillLoop : List ArgSpec → List JSVal → List JSVal
  | [], args => args
  | d :: ds, args =>
    match d.default with
    | none => fillLoop ds args
    | some v =>
      if v.isUndefined then fillLoop ds args
      else fillLoop ds (jsSet args d.id.toNat v)

/-- The value a missing position shows after the fill loop: the value
of a defined default supplier, else undefined. -/
def defaultVal (d : ArgSpec) : JSVal :=
  match d.default with
  | none => .undefined
  | some v => v

/-- The parse stage of validateArgs: specs are stamped with their
index, then the specs having a supplied token run the choices check
and the parse overwrite. -/
def bindStage (defs : List ArgSpec) (args : List JSVal) : List JSVal × Option OErr :=
  parseLoop ((addIdToArgs defs).take args.length) args

/-- The array after the default-fill loop has also run. -/
def boundArgs (defs : List ArgSpec) (args : List JSVal) : List JSVal :=
  fillLoop ((addIdToArgs defs).drop args.length) (bindStage defs args).1

/-- src/args.ts line 164: the required specs whose bound value is
falsy, presence being tested by truthiness. -/
def missingRequired (defs : List ArgSpec) (args : List JSVal) : List ArgSpec :=
  (addIdToArgs defs).filter fun d => d.required && !(truthy (jsGet (boundArgs defs args) d.id.toNat))

/-- validateArgs (src/args.ts lines 139-173), as a function from the
spec list and the caller token array to the final state of both
mutable inputs (the stamped spec list and the token array as mutated
up to the return or throw) plus the outcome. Stage order as in the
source: stamp ids, parse supplied tokens (a throw aborts there), fill
defaults, then the missing-required check, then the excess check
against numOptionalArgs. -/
def validateArgs (defs : List ArgSpec) (args : List JSVal) :
    List ArgSpec × List JSVal × Option OErr :=
  match (bindStage defs args).2 with
  | some e => (addIdToArgs defs, (bindStage defs args).1, some e)
  | none =>
    if (missingRequired defs args).isEmpty then
      if numOptionalArgs (addIdToArgs defs) ≠ -1 ∧
          numOptionalArgs (addIdToArgs defs) < ((boundArgs defs args).length : Int) then
        (addIdToArgs defs, boundArgs defs args,
          some (.unexpectedArgs ((boundArgs defs args).drop (numOptionalArgs (addIdToArgs defs)).toNat)))
      else
        (addIdToArgs defs, boundArgs defs args, none)
    else
      (addIdToArgs defs, boundArgs defs args, some (.requiredArgs (missingRequired defs args)))

/-- The required / optional / rest tag of a spec, as the spec document
classifies slots. A spec marked rest is a rest slot; otherwise the
required flag decides between required and optional. -/
inductive ArgTag : Type where
  | required | optional | rest
deriving DecidableEq

def tagOf (d : ArgSpec) : ArgTag :=
  if d.rest then .rest else if d.required then .required else .optional

/-- A well-formed spec never combines the rest marker with the
required flag: the data model (and the builder entry points
arg.rest / arg.optional / arg.required) keep rest slots non-required. -/
def wfSpec (d : ArgSpec) : Prop :=
  d.rest = true → d.required = false

instance (d : ArgSpec) : Decidable (wfSpec d) := by
  unfold wfSpec; infer_instance

/-- At most one rest slot, at the very end. -/
def restShape (r : List ArgSpec) : Prop :=
  r = [] ∨ ∃ d, r = [d] ∧ tagOf d = .rest

/-- Zero or more optional slots, then at most one rest slot. -/
def optShape (l : List ArgSpec) : Prop :=
  ∃ opts r, l = opts ++ r ∧ (∀ d ∈ opts, tagOf d = .optional) ∧ restShape r

/-- The monotonic shape of the claim: zero or more required slots,
then zero or more optional slots, then at most one rest slot, and
nothing after the rest slot. -/
def monotonicShape (l : List ArgSpec) : Prop :=
  ∃ reqs opts r, l = reqs ++ opts ++ r ∧
    (∀ d ∈ reqs, tagOf d = .required) ∧
    (∀ d ∈ opts, tagOf d = .optional) ∧
    restShape r

/-- The construction-time inputs of a Command (src/command.ts line 8):
the argument list, and whether a run handler and a subcommand map are
present. An empty subcommand map still counts as present, matching the
truthiness tests in runOrSubcommandsCheck. -/
structure CommandOptions where
  args : List ArgSpec := []
  hasRun : Bool
  hasSubcommands : Bool

/-- src/command.ts lines 40-43. -/
def runOrSubcommandsCheck (o : CommandOptions) : Except OErr Unit :=
  if o.hasSubcommands ∧ o.hasRun then
    .error (.defError "command may have subcommands OR a run function but not both.")
  else if ¬o.hasSubcommands ∧ ¬o.hasRun then
    .error (.defError "command must have subcommands OR a run function")
  else .ok ()

/-- The Command constructor (src/command.ts lines 8-16): it runs
runOrSubcommandsCheck and then calls validateArgDefs(this.options),
passing the whole options object where validateArgDefs expects the
argument array. Iterating a plain object with for..of throws a
TypeError before any spec is examined, so this step fails for every
options value that reaches it. -/
def commandConstruct (o : CommandOptions) : Except OErr CommandOptions :=
  match runOrSubcommandsCheck o with
  | .error e => .error e
  | .ok _ => .error (.typeError "this.options is not iterable")

/-- Modelled from the spec: the successful outcome of the flag-parsing
collaborator parse (src/parse.ts is not in the sources). Per the
external-interface section it returns the positional tokens, the flag
values (opaque here) and an optionally selected subcommand; the
subcommand field records whether one was selected, since exec only
tests it for truthiness before delegating. -/
structure ParseOutcome where
  args : List JSVal
  subcommand : Bool

/-- Command.exec (src/command.ts lines 19-38), with the collaborators
as explicit inputs: the outcome of parse (which may throw, e.g. the
version signal), the outcome of the dispatched subcommand exec (its
stdout lines and its result, used only when parse selected a
subcommand), and the outcome of the run handler (used only when no
subcommand was selected and a run handler exists). The result pairs
the stdout lines written with the resolution of exec: the whole body
sits in one try block whose catch writes the rendered text of a
version signal to stdout and resolves with no value, and rethrows
every other error. -/
def execModel (hasRun : Bool) (parseOut : Except OErr ParseOutcome)
    (subExec : List String × Except OErr (Option JSVal))
    (runResult : Except OErr JSVal) :
    List String × Except OErr (Option JSVal) :=
  let body : List String × Except OErr (Option JSVal) :=
    match parseOut with
    | .error e => ([], .error e)
    | .ok p =>
      if p.subcommand then subExec
      else if hasRun then ([], runResult.map some)
      else ([], .ok none)
  match body.2 with
  | .error (.versionSignal t) => (body.1 ++ [t], .ok none)
  | .error e => (body.1, .error e)
  | .ok v => (body.1, .ok v)

/-- A required string argument as the builder arg.required makes it:
identity parse, no choices, no default. -/
def reqStrArg : ArgSpec :=
  { required := true }

/-- An optional string argument as the builder arg.optional makes it. -/
def optStrArg : ArgSpec :=
  { required := false }

/-- A rest string argument as the builder arg.rest makes it. -/
def restStrArg : ArgSpec :=
  { required := false, rest := true }

/-- A required string argument restricted to the choices a and b. -/
def choicesArg : ArgSpec :=
  { required := true, choices := some ["a", "b"] }

/-- The ids of the specs in a list are consecutive from n: the state
addIdToArgs leaves the spec list in. -/
def idsFrom : Nat → List ArgSpec → Prop
  | _, [] => True
  | n, d :: ds => d.id = (n : Int) ∧ idsFrom (n + 1) ds

section ArrayLemmas

theorem jsGet_eq (l : List JSVal) (i : Nat) : jsGet l i = (l[i]?).getD .undefined :=
  List.getD_eq_getElem?_getD l i .undefined

theorem jsGet_of_le (l : List JSVal) (i : Nat) (h : l.length ≤ i) : jsGet l i = .undefined := by
  rw [jsGet_eq, List.getElem?_eq_none_iff.mpr h]
  rfl

theorem jsSet_length (l : List JSVal) (i : Nat) (v : JSVal) :
    (jsSet l i v).length = max l.length (i + 1) := by
  unfold jsSet
  split
  · simp only [List.length_set]
    omega
  · simp only [List.length_append, List.length_replicate, List.length_cons, List.length_nil]
    omega

theorem jsGet_jsSet_self (l : List JSVal) (i : Nat) (v : JSVal) :
    jsGet (jsSet l i v) i = v := by
  unfold jsSet
  split
  next h =>
    rw [jsGet_eq, List.getElem?_set_eq_of_lt v h]
    rfl
  next h =>
    have hl : l.length ≤ i := Nat.le_of_not_lt h
    have hlen : (l ++ List.replicate (i - l.length) JSVal.undefined).length = i := by
      simp only [List.length_append, List.length_replicate]
      omega
    rw [jsGet_eq, List.getElem?_append_right hlen.le, hlen]
    simp

theorem jsGet_jsSet_ne (l : List JSVal) (i j : Nat) (v : JSVal) (h : j ≠ i) :
    jsGet (jsSet l i v) j = jsGet l j := by
  unfold jsSet
  split
  next hi =>
    rw [jsGet_eq, jsGet_eq, List.getElem?_set_ne (Ne.symm h)]
  next hi =>
    have hl : l.length ≤ i := Nat.le_of_not_lt hi
    have hlen : (l ++ List.replicate (i - l.length) JSVal.undefined).length = i := by
      simp only [List.length_append, List.length_replicate]
      omega
    rcases Nat.lt_or_ge j l.length with hj | hj
    · rw [jsGet_eq, jsGet_eq, List.getElem?_append_left (by rw [hlen]; omega),
        List.getElem?_append_left hj]
    · rcases Nat.lt_or_ge j i with hj2 | hj2
      · rw [jsGet_of_le l j hj, jsGet_eq, List.getElem?_append_left (by rw [hlen]; omega),
          List.getElem?_append_right hj, List.getElem?_replicate_of_lt (by omega)]
        rfl
      · rw [jsGet_of_le l j hj, jsGet_eq,
          List.getElem?_eq_none_iff.mpr (by simp only [List.length_append, hlen,
            List.length_cons, List.length_nil]; omega)]
        rfl

end ArrayLemmas

section StampLemmas

theorem isUndefined_iff (v : JSVal) : v.isUndefined = true ↔ v = .undefined := by
  cases v <;> simp [JSVal.isUndefined]

theorem addIdAux_length (ds : List ArgSpec) : ∀ n : Nat, (addIdAux n ds).length = ds.length := by
  induction ds with
  | nil => intro n; rfl
  | cons d ds ih => intro n; simp [addIdAux, ih]

theorem addIdToArgs_length (ds : List ArgSpec) : (addIdToArgs ds).length = ds.length :=
  addIdAux_length ds 0

theorem addIdAux_getElem? (ds : List ArgSpec) :
    ∀ (n t : Nat), (addIdAux n ds)[t]? = (ds[t]?).map fun d => { d with id := ((n + t : Nat) : Int) } := by
  induction ds with
  | nil => intro n t; rfl
  | cons d ds ih =>
    intro n t
    cases t with
    | zero => simp [addIdAux]
    | succ t =>
      simp only [addIdAux, List.getElem?_cons_succ, ih (n + 1) t]
      have : n + 1 + t = n + (t + 1) := by omega
      rw [this]

theorem addIdToArgs_getElem? (ds : List ArgSpec) (t : Nat) :
    (addIdToArgs ds)[t]? = (ds[t]?).map fun d => { d with id := (t : Int) } := by
  have h := addIdAux_getElem? ds 0 t
  rw [Nat.zero_add] at h
  exact h

theorem addIdToArgs_get (ds : List ArgSpec) (t : Nat) (h : t < ds.length)
    (h2 : t < (addIdToArgs ds).length) :
    (addIdToArgs ds).get ⟨t, h2⟩ = { ds.get ⟨t, h⟩ with id := (t : Int) } := by
  have hq := addIdToArgs_getElem? ds t
  rw [List.getElem?_eq_getElem h, List.getElem?_eq_getElem h2] at hq
  exact Option.some.inj hq

theorem idsFrom_addIdAux (ds : List ArgSpec) : ∀ n : Nat, idsFrom n (addIdAux n ds) := by
  induction ds with
  | nil => intro n; trivial
  | cons d ds ih => intro n; exact ⟨rfl, ih (n + 1)⟩

theorem idsFrom_addIdToArgs (ds : List ArgSpec) : idsFrom 0 (addIdToArgs ds) :=
  idsFrom_addIdAux ds 0

theorem idsFrom_take (ds : List ArgSpec) : ∀ (n k : Nat), idsFrom n ds → idsFrom n (ds.take k) := by
  induction ds with
  | nil => intro n k _; simp [idsFrom]
  | cons d ds ih =>
    intro n k h
    cases k with
    | zero => trivial
    | succ k => exact ⟨h.1, ih (n + 1) k h.2⟩

theorem idsFrom_drop (ds : List ArgSpec) : ∀ (n k : Nat), idsFrom n ds → idsFrom (n + k) (ds.drop k) := by
  induction ds with
  | nil => intro n k _; cases k <;> trivial
  | cons d ds ih =>
    intro n k h
    cases k with
    | zero => exact h
    | succ k =>
      have hd := ih (n + 1) k h.2
      rw [show n + (k + 1) = n + 1 + k by omega]
      exact hd

theorem idsFrom_get (ds : List ArgSpec) :
    ∀ n, idsFrom n ds → ∀ t (h : t < ds.length), (ds.get ⟨t, h⟩).id = ((n + t : Nat) : Int) := by
  induction ds with
  | nil => intro n _ t h; exact absurd h (by simp)
  | cons d ds ih =>
    intro n hids t h
    cases t with
    | zero => simpa using hids.1
    | succ t =>
      have := ih (n + 1) hids.2 t (by simpa using Nat.lt_of_succ_lt_succ h)
      simp only [List.get_eq_getElem, List.getElem_cons_succ]
      rw [show n + (t + 1) = n + 1 + t by omega]
      simpa using this

end StampLemmas

section LoopLemmas

theorem parseLoop_length (ds : List ArgSpec) :
    ∀ (n : Nat) (args : List JSVal), idsFrom n ds → n + ds.length ≤ args.length →
      (parseLoop ds args).1.length = args.length := by
  induction ds with
  | nil => intro n args _ _; rfl
  | cons d ds ih =>
    intro n args hids hb
    obtain ⟨hid, hids'⟩ := hids
    rw [parseLoop]
    rcases hc : choicesCheck d.choices (jsGet args d.id.toNat) with _ | e
    · rcases hp : d.parse (jsGet args d.id.toNat) with m | v
      · simp only [hc, hp]
      · simp only [hc, hp]
        have hlen : (jsSet args d.id.toNat v).length = args.length := by
          rw [jsSet_length, hid]
          simp only [Int.toNat_natCast]
          simp at hb
          omega
        rw [ih (n + 1) (jsSet args d.id.toNat v) hids' (by rw [hlen]; simp at hb ⊢; omega)]
        exact hlen
    · simp only [hc]

theorem parseLoop_frame (ds : List ArgSpec) :
    ∀ (n : Nat) (args : List JSVal), idsFrom n ds →
      ∀ j, (j < n ∨ n + ds.length ≤ j) → jsGet (parseLoop ds args).1 j = jsGet args j := by
  induction ds with
  | nil => intro n args _ j _; rfl
  | cons d ds ih =>
    intro n args hids j hj
    obtain ⟨hid, hids'⟩ := hids
    rw [parseLoop]
    rcases hc : choicesCheck d.choices (jsGet args d.id.toNat) with _ | e
    · rcases hp : d.parse (jsGet args d.id.toNat) with m | v
      · simp only [hc, hp]
      · simp only [hc, hp]
        rw [ih (n + 1) (jsSet args d.id.toNat v) hids' j (by simp at hj ⊢; omega)]
        rw [hid]
        simp only [Int.toNat_natCast]
        exact jsGet_jsSet_ne args n j v (by simp at hj; omega)
    · simp only [hc]

theorem parseLoop_ok_get (ds : List ArgSpec) :
    ∀ (n : Nat) (args : List JSVal), idsFrom n ds → (parseLoop ds args).2 = none →
      ∀ t (h : t < ds.length), ∃ v,
        (ds.get ⟨t, h⟩).parse (jsGet args (n + t)) = .ok v ∧
        jsGet (parseLoop ds args).1 (n + t) = v := by
  induction ds with
  | nil => intro n args _ _ t h; exact absurd h (by simp)
  | cons d ds ih =>
    intro n args hids hok t h
    obtain ⟨hid, hids'⟩ := hids
    rw [parseLoop] at hok ⊢
    rcases hc : choicesCheck d.choices (jsGet args d.id.toNat) with _ | e
    · rcases hp : d.parse (jsGet args d.id.toNat) with m | v
      · rw [hc] at hok
        simp only [hp] at hok
        exact absurd hok (by simp)
      · simp only [hc, hp] at hok ⊢
        cases t with
        | zero =>
          refine ⟨v, ?_, ?_⟩
          · rw [Nat.add_zero]
            rw [hid] at hp
            simp only [Int.toNat_natCast] at hp
            simpa using hp
          · rw [Nat.add_zero]
            rw [parseLoop_frame ds (n + 1) (jsSet args d.id.toNat v) hids' n (by omega)]
            rw [hid]
            simp only [Int.toNat_natCast]
            exact jsGet_jsSet_self args n v
        | succ t =>
          obtain ⟨w, hw1, hw2⟩ := ih (n + 1) (jsSet args d.id.toNat v) hids' hok t
            (by simpa using Nat.lt_of_succ_lt_succ h)
          refine ⟨w, ?_, ?_⟩
          · rw [show n + (t + 1) = n + 1 + t by omega]
            rw [hid] at hw1
            simp only [Int.toNat_natCast] at hw1
            rw [jsGet_jsSet_ne args n (n + 1 + t) v (by omega)] at hw1
            simpa using hw1
          · rw [show n + (t + 1) = n + 1 + t by omega]
            exact hw2
    · rw [hc] at hok
      simp only [] at hok
      exact absurd hok (by simp)

theorem parseLoop_benign_ok (ds : List ArgSpec) :
    ∀ args : List JSVal,
      (∀ d ∈ ds, d.choices = none ∧ ∀ x, ∃ w, d.parse x = .ok w) →
      (parseLoop ds args).2 = none := by
  induction ds with
  | nil => intro args _; rfl
  | cons d ds ih =>
    intro args hben
    obtain ⟨hch, hpa⟩ := hben d (by simp)
    rw [parseLoop]
    obtain ⟨w, hw⟩ := hpa (jsGet args d.id.toNat)
    simp only [hch, choicesCheck, hw]
    exact ih (jsSet args d.id.toNat w) (fun d' hd' => hben d' (by simp [hd']))

theorem fillLoop_frame (ds : List ArgSpec) :
    ∀ (n : Nat) (args : List JSVal), idsFrom n ds →
      ∀ j, (j < n ∨ n + ds.length ≤ j) → jsGet (fillLoop ds args) j = jsGet args j := by
  induction ds with
  | nil => intro n args _ j _; rfl
  | cons d ds ih =>
    intro n args hids j hj
    obtain ⟨hid, hids'⟩ := hids
    rw [fillLoop]
    rcases hd : d.default with _ | v
    · simp only [hd]
      exact ih (n + 1) args hids' j (by simp at hj ⊢; omega)
    · by_cases hu : v.isUndefined
      · simp only [hd, if_pos hu]
        exact ih (n + 1) args hids' j (by simp at hj ⊢; omega)
      · simp only [hd, if_neg hu]
        rw [ih (n + 1) (jsSet args d.id.toNat v) hids' j (by simp at hj ⊢; omega)]
        rw [hid]
        simp only [Int.toNat_natCast]
        exact jsGet_jsSet_ne args n j v (by simp at hj; omega)

theorem fillLoop_length (ds : List ArgSpec) :
    ∀ (n : Nat) (args : List JSVal), idsFrom n ds → args.length ≤ n →
      (fillLoop ds args).length ≤ n + ds.length := by
  induction ds with
  | nil => intro n args _ hb; simpa [fillLoop] using hb
  | cons d ds ih =>
    intro n args hids hb
    obtain ⟨hid, hids'⟩ := hids
    rw [fillLoop]
    rcases hd : d.default with _ | v
    · simp only [hd]
      have hr := ih (n + 1) args hids' (by omega)
      simp at hr ⊢
      omega
    · by_cases hu : v.isUndefined
      · simp only [hd, if_pos hu]
        have hr := ih (n + 1) args hids' (by omega)
        simp at hr ⊢
        omega
      · simp only [hd, if_neg hu]
        have hr := ih (n + 1) (jsSet args d.id.toNat v) hids'
          (by rw [jsSet_length, hid]; simp only [Int.toNat_natCast]; omega)
        simp at hr ⊢
        omega

theorem fillLoop_get (ds : List ArgSpec) :
    ∀ (n : Nat) (args : List JSVal), idsFrom n ds → args.length ≤ n →
      ∀ t (h : t < ds.length),
        jsGet (fillLoop ds args) (n + t) = defaultVal (ds.get ⟨t, h⟩) := by
  induction ds with
  | nil => intro n args _ _ t h; exact absurd h (by simp)
  | cons d ds ih =>
    intro n args hids hb t h
    obtain ⟨hid, hids'⟩ := hids
    rw [fillLoop]
    rcases hd : d.default with _ | v
    · simp only [hd]
      cases t with
      | zero =>
        rw [Nat.add_zero, fillLoop_frame ds (n + 1) args hids' n (by omega)]
        rw [jsGet_of_le args n hb]
        simp [defaultVal, hd]
      | succ t =>
        rw [show n + (t + 1) = n + 1 + t by omega]
        exact ih (n + 1) args hids' (by omega) t (by simpa using Nat.lt_of_succ_lt_succ h)
    · by_cases hu : v.isUndefined
      · simp only [hd, if_pos hu]
        cases t with
        | zero =>
          rw [Nat.add_zero, fillLoop_frame ds (n + 1) args hids' n (by omega)]
          rw [jsGet_of_le args n hb]
          simp [defaultVal, hd, (isUndefined_iff v).mp hu]
        | succ t =>
          rw [show n + (t + 1) = n + 1 + t by omega]
          exact ih (n + 1) args hids' (by omega) t (by simpa using Nat.lt_of_succ_lt_succ h)
      · simp only [hd, if_neg hu]
        cases t with
        | zero =>
          rw [Nat.add_zero, fillLoop_frame ds (n + 1) (jsSet args d.id.toNat v) hids' n (by omega)]
          rw [hid]
          simp only [Int.toNat_natCast]
          rw [jsGet_jsSet_self args n v]
          simp [defaultVal, hd]
        | succ t =>
          rw [show n + (t + 1) = n + 1 + t by omega]
          exact ih (n + 1) (jsSet args d.id.toNat v) hids'
            (by rw [jsSet_length, hid]; simp only [Int.toNat_natCast]; omega) t
            (by simpa using Nat.lt_of_succ_lt_succ h)

end LoopLemmas

section BindLemmas

theorem addIdAux_mem (ds : List ArgSpec) :
    ∀ (n : Nat) (d : ArgSpec), d ∈ addIdAux n ds → ∃ d0 ∈ ds, d = { d0 with id := d.id } := by
  induction ds with
  | nil => intro n d hd; exact absurd hd (by simp [addIdAux])
  | cons d0 ds ih =>
    intro n d hd
    rw [addIdAux] at hd
    rcases List.mem_cons.mp hd with h | h
    · exact ⟨d0, by simp, by rw [h]⟩
    · obtain ⟨d1, hd1, he⟩ := ih (n + 1) d h
      exact ⟨d1, by simp [hd1], he⟩

theorem addIdToArgs_rest_all (ds : List ArgSpec) (h : ∀ d ∈ ds, d.rest = false) :
    ∀ d ∈ addIdToArgs ds, d.rest = false := by
  intro d hd
  obtain ⟨d0, hd0, he⟩ := addIdAux_mem ds 0 d hd
  rw [he]
  exact h d0 hd0

theorem foldl_no_rest (ds : List ArgSpec) (h : ∀ d ∈ ds, d.rest = false) :
    ∀ t : Int, ds.foldl (fun total arg => if arg.rest then -1 else total + 1) t = t + ds.length := by
  induction ds with
  | nil => intro t; simp
  | cons d ds ih =>
    intro t
    rw [List.foldl_cons, h d (by simp), if_neg (by simp)]
    rw [ih (fun d' hd' => h d' (by simp [hd'])) (t + 1)]
    simp only [List.length_cons]
    omega

theorem numOptionalArgs_no_rest (ds : List ArgSpec) (h : ∀ d ∈ ds, d.rest = false) :
    numOptionalArgs ds = ds.length := by
  rw [numOptionalArgs, foldl_no_rest ds h 0]
  omega

theorem bindStage_length (defs : List ArgSpec) (args : List JSVal) :
    (bindStage defs args).1.length = args.length := by
  refine parseLoop_length _ 0 args (idsFrom_take _ 0 _ (idsFrom_addIdToArgs _)) ?_
  simp

theorem bindStage_frame (defs : List ArgSpec) (args : List JSVal) :
    ∀ j, defs.length ≤ j → jsGet (bindStage defs args).1 j = jsGet args j := by
  intro j hj
  refine parseLoop_frame _ 0 args (idsFrom_take _ 0 _ (idsFrom_addIdToArgs _)) j (Or.inr ?_)
  simp [addIdToArgs_length]
  omega

theorem bindStage_ok_get (defs : List ArgSpec) (args : List JSVal)
    (hok : (bindStage defs args).2 = none) :
    ∀ t (h : t < defs.length), t < args.length → ∃ v,
      (defs.get ⟨t, h⟩).parse (jsGet args t) = .ok v ∧
      jsGet (bindStage defs args).1 t = v := by
  intro t h ht
  have hlt : t < ((addIdToArgs defs).take args.length).length := by
    simp [addIdToArgs_length]
    omega
  obtain ⟨v, hv1, hv2⟩ := parseLoop_ok_get ((addIdToArgs defs).take args.length) 0 args
    (idsFrom_take _ 0 _ (idsFrom_addIdToArgs _)) hok t hlt
  have hget : ((addIdToArgs defs).take args.length).get ⟨t, hlt⟩ =
      { defs.get ⟨t, h⟩ with id := (t : Int) } := by
    have h2 : t < (addIdToArgs defs).length := by rw [addIdToArgs_length]; exact h
    have : ((addIdToArgs defs).take args.length).get ⟨t, hlt⟩ = (addIdToArgs defs).get ⟨t, h2⟩ := by
      simp [List.get_eq_getElem]
    rw [this, addIdToArgs_get defs t h h2]
  rw [hget] at hv1
  exact ⟨v, by simpa using hv1, by simpa using hv2⟩

theorem boundArgs_eq_of_ge (defs : List ArgSpec) (args : List JSVal)
    (h : defs.length ≤ args.length) :
    boundArgs defs args = (bindStage defs args).1 := by
  rw [boundArgs, List.drop_eq_nil_of_le (by rw [addIdToArgs_length]; exact h)]
  rfl

theorem boundArgs_get_supplied (defs : List ArgSpec) (args : List JSVal) :
    ∀ j, j < args.length → jsGet (boundArgs defs args) j = jsGet (bindStage defs args).1 j := by
  intro j hj
  rw [boundArgs]
  exact fillLoop_frame _ args.length _
    (by simpa using idsFrom_drop _ 0 args.length (idsFrom_addIdToArgs defs)) j (Or.inl hj)

theorem boundArgs_get_missing (defs : List ArgSpec) (args : List JSVal) :
    ∀ t (h : t < defs.length), args.length ≤ t →
      jsGet (boundArgs defs args) t = defaultVal (defs.get ⟨t, h⟩) := by
  intro t h ht
  have hdl : t - args.length < ((addIdToArgs defs).drop args.length).length := by
    simp [addIdToArgs_length]
    omega
  have h2 : t < (addIdToArgs defs).length := by rw [addIdToArgs_length]; exact h
  have hget : ((addIdToArgs defs).drop args.length).get ⟨t - args.length, hdl⟩ =
      { defs.get ⟨t, h⟩ with id := (t : Int) } := by
    have : ((addIdToArgs defs).drop args.length).get ⟨t - args.length, hdl⟩ =
        (addIdToArgs defs).get ⟨t, h2⟩ := by
      simp only [List.get_eq_getElem, List.getElem_drop]
      congr 1
      omega
    rw [this, addIdToArgs_get defs t h h2]
  have hfl := fillLoop_get ((addIdToArgs defs).drop args.length) args.length
    (bindStage defs args).1
    (by simpa using idsFrom_drop _ 0 args.length (idsFrom_addIdToArgs defs))
    (by rw [bindStage_length]) (t - args.length) hdl
  rw [hget] at hfl
  rw [boundArgs]
  rw [show args.length + (t - args.length) = t by omega] at hfl
  rw [hfl]
  simp [defaultVal]

theorem boundArgs_length_le (defs : List ArgSpec) (args : List JSVal)
    (h : args.length ≤ defs.length) :
    (boundArgs defs args).length ≤ defs.length := by
  rw [boundArgs]
  have := fillLoop_length ((addIdToArgs defs).drop args.length) args.length
    (bindStage defs args).1
    (by simpa using idsFrom_drop _ 0 args.length (idsFrom_addIdToArgs defs))
    (by rw [bindStage_length])
  simp [addIdToArgs_length] at this
  omega

theorem boundArgs_frame_ge (defs : List ArgSpec) (args : List JSVal) :
    ∀ j, defs.length ≤ j → jsGet (boundArgs defs args) j = jsGet args j := by
  intro j hj
  rcases Nat.le_total args.length defs.length with hN | hN
  · rw [boundArgs]
    rw [fillLoop_frame _ args.length _
      (by simpa using idsFrom_drop _ 0 args.length (idsFrom_addIdToArgs defs)) j
      (Or.inr (by simp [addIdToArgs_length]; omega))]
    exact bindStage_frame defs args j hj
  · rw [boundArgs_eq_of_ge defs args (by omega)]
    exact bindStage_frame defs args j hj

end BindLemmas


section ShapeLemmas

theorem tagOf_rest_iff (d : ArgSpec) : tagOf d = .rest ↔ d.rest = true := by
  unfold tagOf
  cases hr : d.rest <;> cases hq : d.required <;> simp

theorem tagOf_required_iff (d : ArgSpec) : tagOf d = .required ↔ (d.rest = false ∧ d.required = true) := by
  unfold tagOf
  cases hr : d.rest <;> cases hq : d.required <;> simp

theorem tagOf_optional_iff (d : ArgSpec) : tagOf d = .optional ↔ (d.rest = false ∧ d.required = false) := by
  unfold tagOf
  cases hr : d.rest <;> cases hq : d.required <;> simp

theorem validateState_rest_iff (ds : List ArgSpec) :
    validateState .rest ds = .ok () ↔ ds = [] := by
  cases ds <;> simp [validateState]

theorem restShape_cons_iff (d : ArgSpec) (ds : List ArgSpec) :
    restShape (d :: ds) ↔ (ds = [] ∧ tagOf d = .rest) := by
  constructor
  · rintro (h | ⟨d', he, ht⟩)
    · exact absurd h (by simp)
    · obtain ⟨h1, h2⟩ := List.cons.inj he
      exact ⟨h2, h1 ▸ ht⟩
  · rintro ⟨h1, h2⟩
    exact Or.inr ⟨d, by rw [h1], h2⟩

theorem validateState_optional_iff (ds : List ArgSpec) (hwf : ∀ d ∈ ds, wfSpec d) :
    validateState .optional ds = .ok () ↔ optShape ds := by
  induction ds with
  | nil =>
    exact iff_of_true rfl ⟨[], [], rfl, by simp, Or.inl rfl⟩
  | cons d ds ih =>
    have hwfd : wfSpec d := hwf d (by simp)
    have hwf' : ∀ d' ∈ ds, wfSpec d' := fun d' hd' => hwf d' (by simp [hd'])
    rw [validateState]
    by_cases hr : d.required
    · rw [if_pos hr]
      refine iff_of_false (by simp) ?_
      rintro ⟨opts, r, heq, hopts, hrest⟩
      cases opts with
      | nil =>
        simp only [List.nil_append] at heq
        rw [← heq] at hrest
        obtain ⟨h1, h2⟩ := (restShape_cons_iff d ds).mp hrest
        have := (tagOf_rest_iff d).mp h2
        have h3 := hwfd this
        rw [h3] at hr
        exact absurd hr (by simp)
      | cons o opts' =>
        obtain ⟨h1, _⟩ := List.cons.inj heq
        have := (tagOf_optional_iff o).mp (hopts o (by simp))
        rw [← h1] at this
        rw [this.2] at hr
        exact absurd hr (by simp)
    · rw [if_neg hr]
      by_cases hq : d.rest
      · rw [if_pos hq, validateState_rest_iff]
        constructor
        · intro hds
          refine ⟨[], [d], by rw [hds]; rfl, by simp, Or.inr ⟨d, rfl, (tagOf_rest_iff d).mpr hq⟩⟩
        · rintro ⟨opts, r, heq, hopts, hrest⟩
          cases opts with
          | nil =>
            simp only [List.nil_append] at heq
            rw [← heq] at hrest
            exact ((restShape_cons_iff d ds).mp hrest).1
          | cons o opts' =>
            obtain ⟨h1, _⟩ := List.cons.inj heq
            have := (tagOf_optional_iff o).mp (hopts o (by simp))
            rw [← h1] at this
            rw [this.1] at hq
            exact absurd hq (by simp)
      · rw [if_neg hq, ih hwf']
        constructor
        · rintro ⟨opts, r, heq, hopts, hrest⟩
          refine ⟨d :: opts, r, by rw [heq]; rfl, ?_, hrest⟩
          intro d' hd'
          rcases List.mem_cons.mp hd' with h | h
          · rw [h]
            exact (tagOf_optional_iff d).mpr ⟨by simpa using hq, by simpa using hr⟩
          · exact hopts d' h
        · rintro ⟨opts, r, heq, hopts, hrest⟩
          cases opts with
          | nil =>
            simp only [List.nil_append] at heq
            rw [← heq] at hrest
            obtain ⟨h1, h2⟩ := (restShape_cons_iff d ds).mp hrest
            have := ((tagOf_rest_iff d).mp h2)
            exact absurd this (by simpa using hq)
          | cons o opts' =>
            obtain ⟨h1, h2⟩ := List.cons.inj heq
            exact ⟨opts', r, h2, fun d' hd' => hopts d' (by simp [hd']), hrest⟩

theorem validateState_required_iff (ds : List ArgSpec) (hwf : ∀ d ∈ ds, wfSpec d) :
    validateState .required ds = .ok () ↔ monotonicShape ds := by
  induction ds with
  | nil =>
    exact iff_of_true rfl ⟨[], [], [], rfl, by simp, by simp, Or.inl rfl⟩
  | cons d ds ih =>
    have hwfd : wfSpec d := hwf d (by simp)
    have hwf' : ∀ d' ∈ ds, wfSpec d' := fun d' hd' => hwf d' (by simp [hd'])
    rw [validateState]
    by_cases hq : d.rest
    · rw [if_pos hq, validateState_rest_iff]
      constructor
      · intro hds
        exact ⟨[], [], [d], by rw [hds]; rfl, by simp, by simp,
          Or.inr ⟨d, rfl, (tagOf_rest_iff d).mpr hq⟩⟩
      · rintro ⟨reqs, opts, r, heq, hreqs, hopts, hrest⟩
        cases reqs with
        | cons q reqs' =>
          obtain ⟨h1, _⟩ := List.cons.inj heq
          have := (tagOf_required_iff q).mp (hreqs q (by simp))
          rw [← h1] at this
          rw [this.1] at hq
          exact absurd hq (by simp)
        | nil =>
          simp only [List.nil_append] at heq
          cases opts with
          | cons o opts' =>
            obtain ⟨h1, _⟩ := List.cons.inj heq
            have := (tagOf_optional_iff o).mp (hopts o (by simp))
            rw [← h1] at this
            rw [this.1] at hq
            exact absurd hq (by simp)
          | nil =>
            simp only [List.nil_append] at heq
            rw [← heq] at hrest
            exact ((restShape_cons_iff d ds).mp hrest).1
    · rw [if_neg hq]
      by_cases hr : d.required
      · rw [if_neg (by simpa using hr), ih hwf']
        constructor
        · rintro ⟨reqs, opts, r, heq, hreqs, hopts, hrest⟩
          refine ⟨d :: reqs, opts, r, by rw [heq]; rfl, ?_, hopts, hrest⟩
          intro d' hd'
          rcases List.mem_cons.mp hd' with h | h
          · rw [h]
            exact (tagOf_required_iff d).mpr ⟨by simpa using hq, hr⟩
          · exact hreqs d' h
        · rintro ⟨reqs, opts, r, heq, hreqs, hopts, hrest⟩
          cases reqs with
          | cons q reqs' =>
            obtain ⟨h1, h2⟩ := List.cons.inj heq
            exact ⟨reqs', opts, r, h2, fun d' hd' => hreqs d' (by simp [hd']), hopts, hrest⟩
          | nil =>
            simp only [List.nil_append] at heq
            cases opts with
            | cons o opts' =>
              obtain ⟨h1, _⟩ := List.cons.inj heq
              have := (tagOf_optional_iff o).mp (hopts o (by simp))
              rw [← h1] at this
              rw [this.2] at hr
              exact absurd hr (by simp)
            | nil =>
              simp only [List.nil_append] at heq
              rw [← heq] at hrest
              obtain ⟨h1, h2⟩ := (restShape_cons_iff d ds).mp hrest
              have := (tagOf_rest_iff d).mp h2
              exact absurd this (by simpa using hq)
      · rw [if_pos (by simpa using hr), validateState_optional_iff ds hwf']
        constructor
        · rintro ⟨opts, r, heq, hopts, hrest⟩
          refine ⟨[], d :: opts, r, by rw [heq]; rfl, by simp, ?_, hrest⟩
          intro d' hd'
          rcases List.mem_cons.mp hd' with h | h
          · rw [h]
            exact (tagOf_optional_iff d).mpr ⟨by simpa using hq, by simpa using hr⟩
          · exact hopts d' h
        · rintro ⟨reqs, opts, r, heq, hreqs, hopts, hrest⟩
          cases reqs with
          | cons q reqs' =>
            obtain ⟨h1, _⟩ := List.cons.inj heq
            have := (tagOf_required_iff q).mp (hreqs q (by simp))
            rw [← h1] at this
            rw [this.2] at hr
            exact absurd hr (by simp)
          | nil =>
            simp only [List.nil_append] at heq
            cases opts with
            | cons o opts' =>
              obtain ⟨h1, h2⟩ := List.cons.inj heq
              refine ⟨opts', r, h2, fun d' hd' => hopts d' (by simp [hd']), hrest⟩
            | nil =>
              simp only [List.nil_append] at heq
              rw [← heq] at hrest
              obtain ⟨h1, h2⟩ := (restShape_cons_iff d ds).mp hrest
              exact absurd ((tagOf_rest_iff d).mp h2) (by simpa using hq)

end ShapeLemmas

section MaxArgsLemmas

theorem validateState_foldl (ds : List ArgSpec) :
    ∀ (st : VState) (t : Int), validateState st ds = .ok () →
      (st = .required ∨ st = .optional) →
      ds.foldl (fun total arg => if arg.rest then -1 else total + 1) t =
        if ds.any (fun d => d.rest) then -1 else t + ds.length := by
  induction ds with
  | nil => intro st t _ _; simp
  | cons d ds ih =>
    intro st t hok hst
    by_cases hq : d.rest
    · have hds : ds = [] := by
        rcases hst with h | h <;> rw [h] at hok <;> rw [validateState] at hok
        · rw [if_pos hq] at hok
          exact (validateState_rest_iff ds).mp hok
        · by_cases hr : d.required
          · rw [if_pos hr] at hok
            exact absurd hok (by simp)
          · rw [if_neg hr, if_pos hq] at hok
            exact (validateState_rest_iff ds).mp hok
      rw [hds]
      simp [hq]
    · rw [List.foldl_cons, if_neg hq]
      have hnext : validateState (if d.required then st else .optional) ds = .ok () ∧
          ((if d.required then st else .optional) = .required ∨
           (if d.required then st else .optional) = .optional) := by
        rcases hst with h | h <;> rw [h] at hok ⊢ <;> rw [validateState] at hok
        · rw [if_neg hq] at hok
          by_cases hr : d.required
          · rw [if_pos hr]
            rw [if_neg (by simpa using hr)] at hok
            exact ⟨hok, Or.inl rfl⟩
          · rw [if_neg hr]
            rw [if_pos (by simpa using hr)] at hok
            exact ⟨hok, Or.inr rfl⟩
        · by_cases hr : d.required
          · rw [if_pos hr] at hok
            exact absurd hok (by simp)
          · rw [if_neg hr, if_neg hq] at hok
            rw [if_neg hr]
            exact ⟨hok, Or.inr rfl⟩
      rw [ih (if d.required then st else .optional) (t + 1) hnext.1 hnext.2]
      simp only [List.any_cons, hq, Bool.false_or, List.length_cons]
      by_cases ha : ds.any (fun d => d.rest)
      · rw [if_pos ha, if_pos ha]
      · rw [if_neg ha, if_neg ha]
        push_cast
        ring

end MaxArgsLemmas

/-- C1: for every spec sequence of well-formed specs (a rest slot is
never also required, as the data model and the builders guarantee),
validateArgDefs succeeds exactly when the required / optional / rest
tags are monotonic: zero or more required, then zero or more optional,
then at most one rest slot and nothing after it; on every sequence
violating that shape it fails with a definition error, whatever the
other content of the specs. -/
theorem claim_c1 (defs : List ArgSpec) (hwf : ∀ d ∈ defs, wfSpec d) :
    (validateArgDefs defs = .ok () ↔ monotonicShape defs) ∧
    (¬ monotonicShape defs → ∃ msg, validateArgDefs defs = .error msg) := by
  have h : validateArgDefs defs = validateState .required defs := rfl
  rw [h]
  have hiff := validateState_required_iff defs hwf
  refine ⟨hiff, ?_⟩
  intro hm
  cases he : validateState .required defs with
  | ok u => cases u; exact absurd (hiff.mp he) hm
  | error msg => exact ⟨msg, rfl⟩

theorem claim_c1_witness :
    (∀ d ∈ [reqStrArg, optStrArg, restStrArg], wfSpec d) ∧
    ((validateArgDefs [reqStrArg, optStrArg, restStrArg] = .ok () ↔
      monotonicShape [reqStrArg, optStrArg, restStrArg]) ∧
     (¬ monotonicShape [reqStrArg, optStrArg, restStrArg] → ∃ msg,
      validateArgDefs [reqStrArg, optStrArg, restStrArg] = .error msg)) := by
  have hwf : ∀ d ∈ [reqStrArg, optStrArg, restStrArg], wfSpec d := by
    intro d hd
    rcases List.mem_cons.mp hd with h | hd
    · rw [h]; intro hx; exact absurd hx (by simp [reqStrArg])
    rcases List.mem_cons.mp hd with h | hd
    · rw [h]; intro hx; rfl
    rcases List.mem_cons.mp hd with h | hd
    · rw [h]; intro hx; rfl
    · exact absurd hd (by simp)
  exact ⟨hwf, claim_c1 _ hwf⟩

/-- C5: for every definition list that passes validation, the computed
maximum token count numOptionalArgs equals the count of the non-rest
specs, and equals the unbounded sentinel -1 exactly when some spec is
a rest slot. -/
theorem claim_c5 (defs : List ArgSpec) (hv : validateArgDefs defs = .ok ()) :
    numOptionalArgs defs =
      (if defs.any (fun d => d.rest) then (-1 : Int)
       else ((defs.filter fun d => !d.rest).length : Int)) ∧
    (numOptionalArgs defs = -1 ↔ defs.any (fun d => d.rest) = true) := by
  have hv' : validateState .required defs = .ok () := hv
  have hfold := validateState_foldl defs .required 0 hv' (Or.inl rfl)
  have hnum : numOptionalArgs defs =
      (if defs.any (fun d => d.rest) then (-1 : Int) else (0 : Int) + defs.length) := by
    rw [numOptionalArgs, hfold]
  constructor
  · rw [hnum]
    by_cases ha : defs.any (fun d => d.rest)
    · rw [if_pos ha, if_pos ha]
    · rw [if_neg ha, if_neg ha]
      have hall : ∀ d ∈ defs, (fun d : ArgSpec => !d.rest) d = true := by
        intro d hd
        have := List.any_eq_false.mp (by simpa using ha) d hd
        simpa using this
      rw [List.filter_eq_self.mpr hall]
      omega
  · rw [hnum]
    by_cases ha : defs.any (fun d => d.rest)
    · rw [if_pos ha]
      simp [ha]
    · rw [if_neg ha]
      constructor
      · intro h; omega
      · intro h; exact absurd h (by simpa using ha)

theorem claim_c5_witness :
    validateArgDefs [reqStrArg, restStrArg] = .ok () ∧
    (numOptionalArgs [reqStrArg, restStrArg] =
      (if [reqStrArg, restStrArg].any (fun d => d.rest) then (-1 : Int)
       else (([reqStrArg, restStrArg].filter fun d => !d.rest).length : Int)) ∧
     (numOptionalArgs [reqStrArg, restStrArg] = -1 ↔
      [reqStrArg, restStrArg].any (fun d => d.rest) = true)) :=
  ⟨rfl, claim_c5 _ rfl⟩

theorem validateArgs_fst (defs : List ArgSpec) (args : List JSVal) :
    (validateArgs defs args).1 = addIdToArgs defs := by
  rw [validateArgs]
  cases hbs : (bindStage defs args).2 with
  | none =>
    simp only []
    split
    · split <;> rfl
    · rfl
  | some e => rfl

theorem validateArgs_arr_of_ok (defs : List ArgSpec) (args : List JSVal)
    (hok : (bindStage defs args).2 = none) :
    (validateArgs defs args).2.1 = boundArgs defs args := by
  rw [validateArgs]
  simp only [hok]
  split
  · split <;> rfl
  · rfl

/-- C2: for every validated definition list and token list on which the
parse stage completes, a required spec whose bound value is falsy but
defined (for example the empty string or numeric zero) is treated by
the binder as missing, because presence is tested by truthiness: the
binding fails with the missing-required-arguments error and that spec
is among the specs the error carries. -/
theorem claim_c2 (defs : List ArgSpec) (args : List JSVal) (i : Nat) (h : i < defs.length)
    (hv : validateArgDefs defs = .ok ())
    (hok : (bindStage defs args).2 = none)
    (hreq : (defs.get ⟨i, h⟩).required = true)
    (hdefv : jsGet (boundArgs defs args) i ≠ .undefined)
    (hfalsy : truthy (jsGet (boundArgs defs args) i) = false) :
    ∃ l, (validateArgs defs args).2.2 = some (.requiredArgs l) ∧
      (i : Int) ∈ l.map (fun d => d.id) := by
  have h2 : i < (addIdToArgs defs).length := by rw [addIdToArgs_length]; exact h
  have hget := addIdToArgs_get defs i h h2
  have hmem0 : (addIdToArgs defs).get ⟨i, h2⟩ ∈ addIdToArgs defs := List.get_mem _ i h2
  have hp : (fun d => d.required && !(truthy (jsGet (boundArgs defs args) d.id.toNat)))
      ((addIdToArgs defs).get ⟨i, h2⟩) = true := by
    rw [hget]
    simp only [Int.toNat_natCast, hreq, hfalsy]
    rfl
  have hmem : (addIdToArgs defs).get ⟨i, h2⟩ ∈ missingRequired defs args :=
    List.mem_filter_of_mem hmem0 hp
  have hne : (missingRequired defs args).isEmpty = false :=
    List.isEmpty_eq_false.mpr (List.ne_nil_of_mem hmem)
  refine ⟨missingRequired defs args, ?_, ?_⟩
  · rw [validateArgs]
    simp only [hok, hne]
    rfl
  · refine List.mem_map.mpr ⟨(addIdToArgs defs).get ⟨i, h2⟩, hmem, ?_⟩
    rw [hget]

theorem claim_c2_witness :
    validateArgDefs [reqStrArg] = .ok () ∧
    (bindStage [reqStrArg] [JSVal.str ""]).2 = none ∧
    ([reqStrArg].get ⟨0, by simp⟩).required = true ∧
    jsGet (boundArgs [reqStrArg] [JSVal.str ""]) 0 ≠ .undefined ∧
    truthy (jsGet (boundArgs [reqStrArg] [JSVal.str ""]) 0) = false ∧
    (∃ l, (validateArgs [reqStrArg] [JSVal.str ""]).2.2 = some (.requiredArgs l) ∧
      ((0 : Nat) : Int) ∈ l.map (fun d => d.id)) := by
  refine ⟨rfl, rfl, rfl, ?_, rfl, ?_⟩
  · intro hcon
    exact JSVal.noConfusion hcon
  · exact claim_c2 [reqStrArg] [JSVal.str ""] 0 (by simp) rfl rfl rfl
      (fun hcon => JSVal.noConfusion hcon) rfl

/-- C10: the binder works in place on its two inputs. The spec list
component of the result is exactly addIdToArgs of the input, which
stamps each spec with its index and changes nothing else; and when the
parse stage completes, the array component of the result is the input
token array with the supplied positions overwritten by parsed values
and the missing positions holding the default-supplied values, while
every position at or beyond the spec count still holds the original
input value. -/
theorem claim_c10 (defs : List ArgSpec) (args : List JSVal)
    (hok : (bindStage defs args).2 = none) :
    (validateArgs defs args).1 = addIdToArgs defs ∧
    (∀ t : Nat, (addIdToArgs defs)[t]? = (defs[t]?).map fun d => { d with id := (t : Int) }) ∧
    (validateArgs defs args).2.1 = boundArgs defs args ∧
    (∀ t (h : t < defs.length), t < args.length → ∃ v,
      (defs.get ⟨t, h⟩).parse (jsGet args t) = .ok v ∧
      jsGet (boundArgs defs args) t = v) ∧
    (∀ t (h : t < defs.length), args.length ≤ t →
      jsGet (boundArgs defs args) t = defaultVal (defs.get ⟨t, h⟩)) ∧
    (∀ j, defs.length ≤ j → jsGet (boundArgs defs args) j = jsGet args j) := by
  refine ⟨validateArgs_fst defs args, addIdToArgs_getElem? defs,
    validateArgs_arr_of_ok defs args hok, ?_, boundArgs_get_missing defs args,
    boundArgs_frame_ge defs args⟩
  · intro t h ht
    obtain ⟨v, hv1, hv2⟩ := bindStage_ok_get defs args hok t h ht
    exact ⟨v, hv1, by rw [boundArgs_get_supplied defs args t ht]; exact hv2⟩

theorem claim_c10_witness :
    (bindStage [reqStrArg, optStrArg] [JSVal.str "a"]).2 = none ∧
    ((validateArgs [reqStrArg, optStrArg] [JSVal.str "a"]).1 = addIdToArgs [reqStrArg, optStrArg] ∧
    (∀ t : Nat, (addIdToArgs [reqStrArg, optStrArg])[t]? =
      (([reqStrArg, optStrArg] : List ArgSpec)[t]?).map fun d => { d with id := (t : Int) }) ∧
    (validateArgs [reqStrArg, optStrArg] [JSVal.str "a"]).2.1 =
      boundArgs [reqStrArg, optStrArg] [JSVal.str "a"] ∧
    (∀ t (h : t < ([reqStrArg, optStrArg] : List ArgSpec).length),
      t < ([JSVal.str "a"] : List JSVal).length → ∃ v,
      (([reqStrArg, optStrArg] : List ArgSpec).get ⟨t, h⟩).parse (jsGet [JSVal.str "a"] t) = .ok v ∧
      jsGet (boundArgs [reqStrArg, optStrArg] [JSVal.str "a"]) t = v) ∧
    (∀ t (h : t < ([reqStrArg, optStrArg] : List ArgSpec).length),
      ([JSVal.str "a"] : List JSVal).length ≤ t →
      jsGet (boundArgs [reqStrArg, optStrArg] [JSVal.str "a"]) t =
        defaultVal (([reqStrArg, optStrArg] : List ArgSpec).get ⟨t, h⟩)) ∧
    (∀ j, ([reqStrArg, optStrArg] : List ArgSpec).length ≤ j →
      jsGet (boundArgs [reqStrArg, optStrArg] [JSVal.str "a"]) j = jsGet [JSVal.str "a"] j)) :=
  ⟨rfl, claim_c10 [reqStrArg, optStrArg] [JSVal.str "a"] rfl⟩

/-- C7: evaluating the Command constructor. The both and neither cases
fail with their definition errors as the claim says, but the
exactly-one cases fail too: the constructor passes this.options (the
whole options object) to validateArgDefs, which iterates it with
for..of, and a plain object is not iterable, so a TypeError is thrown
even for a well-formed command with a run handler (or subcommands) and
an empty, trivially valid argument list. -/
theorem claim_c7 :
    commandConstruct { args := [], hasRun := true, hasSubcommands := false }
      = .error (.typeError "this.options is not iterable") ∧
    commandConstruct { args := [], hasRun := false, hasSubcommands := true }
      = .error (.typeError "this.options is not iterable") ∧
    commandConstruct { args := [], hasRun := true, hasSubcommands := true }
      = .error (.defError "command may have subcommands OR a run function but not both.") ∧
    commandConstruct { args := [], hasRun := false, hasSubcommands := false }
      = .error (.defError "command must have subcommands OR a run function") :=
  ⟨rfl, rfl, rfl, rfl⟩

/-- C8: a version signal thrown by flag parsing is caught at the top of
exec, its rendered text is written to standard output, and exec
resolves with no value; every error from flag parsing that is not the
version signal propagates unchanged to the caller of exec. -/
theorem claim_c8 :
    (∀ (t : String) (hasRun : Bool) (subExec : List String × Except OErr (Option JSVal))
        (runResult : Except OErr JSVal),
      execModel hasRun (.error (.versionSignal t)) subExec runResult = ([t], .ok none)) ∧
    (∀ (e : OErr) (hasRun : Bool) (subExec : List String × Except OErr (Option JSVal))
        (runResult : Except OErr JSVal),
      (∀ t, e ≠ .versionSignal t) →
      execModel hasRun (.error e) subExec runResult = ([], .error e)) := by
  constructor
  · intro t hasRun subExec runResult
    rfl
  · intro e hasRun subExec runResult hne
    cases e with
    | versionSignal t => exact absurd rfl (hne t)
    | choicesError i cs => rfl
    | requiredArgs specs => rfl
    | unexpectedArgs vals => rfl
    | defError m => rfl
    | typeError m => rfl
    | userThrown m => rfl

theorem claim_c8_witness :
    (∀ t : String, OErr.userThrown "boom" ≠ .versionSignal t) ∧
    execModel true (.error (.versionSignal "oclip 1.0.0")) ([], .ok none) (.ok (.num 0))
      = (["oclip 1.0.0"], .ok none) ∧
    execModel true (.error (.userThrown "boom")) ([], .ok none) (.ok (.num 0))
      = ([], .error (.userThrown "boom")) := by
  have hne : ∀ t : String, OErr.userThrown "boom" ≠ .versionSignal t :=
    fun t h => OErr.noConfusion h
  exact ⟨hne, claim_c8.1 "oclip 1.0.0" true ([], .ok none) (.ok (.num 0)),
    claim_c8.2 (.userThrown "boom") true ([], .ok none) (.ok (.num 0)) hne⟩

/-- C9: the try block of exec wraps the whole body, so a version signal
thrown by a dispatched subcommand exec, or by the run handler itself,
is caught the same way as one thrown during flag parsing: its rendered
text is written to standard output and exec resolves with no value. -/
theorem claim_c9 :
    (∀ (pargs : List JSVal) (t : String) (subout : List String) (hasRun : Bool)
        (runResult : Except OErr JSVal),
      execModel hasRun (.ok ⟨pargs, true⟩) (subout, .error (.versionSignal t)) runResult
        = (subout ++ [t], .ok none)) ∧
    (∀ (pargs : List JSVal) (t : String)
        (subExec : List String × Except OErr (Option JSVal)),
      execModel true (.ok ⟨pargs, false⟩) subExec (.error (.versionSignal t))
        = ([t], .ok none)) := by
  constructor
  · intro pargs t subout hasRun runResult
    rfl
  · intro pargs t subExec
    rfl

theorem jsGet_eq_get (l : List JSVal) (i : Nat) (h : i < l.length) :
    jsGet l i = l.get ⟨i, h⟩ := by
  rw [jsGet_eq, List.getElem?_eq_getElem h]
  rfl

/-- C3 counterexample: the claim quantifies over every definition list
of k required then m optional specs with no rest slot and every token
list of length between k and k + m, and asserts binding succeeds with
exactly k + m bound values. Three concrete instances refute it: with
one optional spec without a default and zero tokens (k = 0, m = 1),
binding succeeds but yields zero bound values, not one; with one
required spec carrying a choices list and the token c (k = 1, m = 0),
binding fails with the invalid-choice error; and with one required
spec and the empty-string token, binding fails with the
missing-required error because the bound value is falsy. -/
theorem claim_c3_counterexample :
    ((validateArgs [optStrArg] ([] : List JSVal)).2.2 = none ∧
     (validateArgs [optStrArg] ([] : List JSVal)).2.1.length = 0) ∧
    (validateArgs [choicesArg] [JSVal.str "c"]).2.2
      = some (.choicesError (.str "c") ["a", "b"]) ∧
    (validateArgs [reqStrArg] [JSVal.str ""]).2.2
      = some (.requiredArgs [{ reqStrArg with id := 0 }]) :=
  ⟨⟨rfl, rfl⟩, rfl, rfl⟩

/-- C3 as amended: for a definition list of k required then m optional
specs, none of them rest slots, and a token list of length N with
k ≤ N ≤ k + m, provided the parse stage completes (no choices
rejection, no parse throw) and every required slot binds a truthy
value, binding succeeds; the bound array is the filled array, its
length is at most k + m, each supplied slot holds its parsed value and
each unsupplied slot reads as the value of its default supplier when
one is defined and as undefined otherwise. -/
theorem claim_c3_amended (defs : List ArgSpec) (args : List JSVal) (k m : Nat)
    (hlen : defs.length = k + m)
    (hreq : ∀ i (h : i < defs.length), i < k → (defs.get ⟨i, h⟩).required = true)
    (hopt : ∀ i (h : i < defs.length), k ≤ i → (defs.get ⟨i, h⟩).required = false)
    (hnorest : ∀ d ∈ defs, d.rest = false)
    (hN1 : k ≤ args.length) (hN2 : args.length ≤ k + m)
    (hok : (bindStage defs args).2 = none)
    (htruthy : ∀ i, i < k → truthy (jsGet (boundArgs defs args) i) = true) :
    (validateArgs defs args).2.2 = none ∧
    (validateArgs defs args).2.1 = boundArgs defs args ∧
    (boundArgs defs args).length ≤ k + m ∧
    (∀ t (h : t < defs.length), t < args.length → ∃ v,
      (defs.get ⟨t, h⟩).parse (jsGet args t) = .ok v ∧
      jsGet (boundArgs defs args) t = v) ∧
    (∀ t (h : t < defs.length), args.length ≤ t →
      jsGet (boundArgs defs args) t = defaultVal (defs.get ⟨t, h⟩)) := by
  have hempty : missingRequired defs args = [] := by
    refine List.filter_eq_nil_iff.mpr ?_
    intro d hd
    obtain ⟨⟨t, ht⟩, hget⟩ := List.mem_iff_get.mp hd
    have ht' : t < defs.length := by
      have := ht
      rw [addIdToArgs_length] at this
      exact this
    rw [← hget, addIdToArgs_get defs t ht' ht]
    rcases Nat.lt_or_ge t k with htk | htk
    · simp only [Int.toNat_natCast, htruthy t htk]
      simp
    · simp only [Int.toNat_natCast, hopt t ht' htk]
      simp
  have hisEmpty : (missingRequired defs args).isEmpty = true := by
    rw [hempty]
    rfl
  have hnum : numOptionalArgs (addIdToArgs defs) = ((k + m : Nat) : Int) := by
    rw [numOptionalArgs_no_rest _ (addIdToArgs_rest_all defs hnorest), addIdToArgs_length, hlen]
  have hblen : (boundArgs defs args).length ≤ k + m := by
    have := boundArgs_length_le defs args (by omega)
    omega
  have hcond : ¬ (numOptionalArgs (addIdToArgs defs) ≠ -1 ∧
      numOptionalArgs (addIdToArgs defs) < ((boundArgs defs args).length : Int)) := by
    rw [hnum]
    intro hco
    have := hco.2
    have hc2 : ((boundArgs defs args).length : Int) ≤ ((k + m : Nat) : Int) := by
      exact_mod_cast hblen
    omega
  refine ⟨?_, validateArgs_arr_of_ok defs args hok, hblen, ?_, boundArgs_get_missing defs args⟩
  · rw [validateArgs]
    simp only [hok, hisEmpty]
    rw [if_neg hcond]
    simp
  · intro t h ht
    obtain ⟨v, hv1, hv2⟩ := bindStage_ok_get defs args hok t h ht
    exact ⟨v, hv1, by rw [boundArgs_get_supplied defs args t ht]; exact hv2⟩

theorem claim_c3_amended_witness :
    (([reqStrArg, { optStrArg with default := some (JSVal.str "d") }] : List ArgSpec).length = 1 + 1) ∧
    (bindStage [reqStrArg, { optStrArg with default := some (JSVal.str "d") }] [JSVal.str "x"]).2 = none ∧
    ((validateArgs [reqStrArg, { optStrArg with default := some (JSVal.str "d") }] [JSVal.str "x"]).2.2 = none ∧
     (validateArgs [reqStrArg, { optStrArg with default := some (JSVal.str "d") }] [JSVal.str "x"]).2.1 =
       boundArgs [reqStrArg, { optStrArg with default := some (JSVal.str "d") }] [JSVal.str "x"] ∧
     (boundArgs [reqStrArg, { optStrArg with default := some (JSVal.str "d") }] [JSVal.str "x"]).length ≤ 1 + 1 ∧
     (∀ t (h : t < ([reqStrArg, { optStrArg with default := some (JSVal.str "d") }] : List ArgSpec).length),
       t < ([JSVal.str "x"] : List JSVal).length → ∃ v,
       (([reqStrArg, { optStrArg with default := some (JSVal.str "d") }] : List ArgSpec).get ⟨t, h⟩).parse
           (jsGet [JSVal.str "x"] t) = .ok v ∧
       jsGet (boundArgs [reqStrArg, { optStrArg with default := some (JSVal.str "d") }] [JSVal.str "x"]) t = v) ∧
     (∀ t (h : t < ([reqStrArg, { optStrArg with default := some (JSVal.str "d") }] : List ArgSpec).length),
       ([JSVal.str "x"] : List JSVal).length ≤ t →
       jsGet (boundArgs [reqStrArg, { optStrArg with default := some (JSVal.str "d") }] [JSVal.str "x"]) t =
         defaultVal (([reqStrArg, { optStrArg with default := some (JSVal.str "d") }] : List ArgSpec).get ⟨t, h⟩))) := by
  refine ⟨rfl, rfl, ?_⟩
  refine claim_c3_amended _ _ 1 1 rfl ?_ ?_ ?_ (by simp) (by simp) rfl ?_
  · intro i h hi
    have hz : i = 0 := by omega
    subst hz
    rfl
  · intro i h hi
    have hz : i = 1 := by
      simp at h
      omega
    subst hz
    rfl
  · intro d hd
    rcases List.mem_cons.mp hd with h | hd
    · rw [h]; rfl
    rcases List.mem_cons.mp hd with h | hd
    · rw [h]; rfl
    · exact absurd hd (by simp)
  · intro i hi
    have hz : i = 0 := by omega
    subst hz
    rfl

/-- C4 counterexample: binding the tokens x, y, z against the
definition list of required a then rest b succeeds, but the bound
array stays flat: position zero is x and positions one and two hold
the tokens y and z as separate string values; the rest slot does not
collect them into a list, so the bound array is not the claimed
two-element form with a nested list. -/
theorem claim_c4_counterexample :
    (validateArgs [reqStrArg, restStrArg] [JSVal.str "x", .str "y", .str "z"]).2.2 = none ∧
    (validateArgs [reqStrArg, restStrArg] [JSVal.str "x", .str "y", .str "z"]).2.1
      = [JSVal.str "x", .str "y", .str "z"] ∧
    (validateArgs [reqStrArg, restStrArg] [JSVal.str "x", .str "y", .str "z"]).2.1.length = 3 ∧
    (jsGet (validateArgs [reqStrArg, restStrArg] [JSVal.str "x", .str "y", .str "z"]).2.1 1).isArr
      = false ∧
    (jsGet (validateArgs [reqStrArg, restStrArg] [JSVal.str "x", .str "y", .str "z"]).2.1 2).isArr
      = false :=
  ⟨rfl, rfl, rfl, rfl, rfl⟩

/-- C4 as amended: binding x, y, z against required a then rest b
succeeds with no error of any kind, a is bound to x at position zero,
and the remaining tokens y and z stay as separate trailing values of
the bound array; moreover, because the rest slot makes the computed
maximum unbounded, no token list whatsoever makes this definition list
produce the unexpected-arguments error. -/
theorem claim_c4_amended :
    (∀ tokens : List JSVal,
      notUnexpected (validateArgs [reqStrArg, restStrArg] tokens).2.2 = true) ∧
    (validateArgs [reqStrArg, restStrArg] [JSVal.str "x", .str "y", .str "z"]).2.2 = none ∧
    (validateArgs [reqStrArg, restStrArg] [JSVal.str "x", .str "y", .str "z"]).2.1
      = [JSVal.str "x", .str "y", .str "z"] ∧
    jsGet (validateArgs [reqStrArg, restStrArg] [JSVal.str "x", .str "y", .str "z"]).2.1 0
      = .str "x" := by
  refine ⟨?_, rfl, rfl, rfl⟩
  intro tokens
  have hok : (bindStage [reqStrArg, restStrArg] tokens).2 = none := by
    refine parseLoop_benign_ok _ tokens ?_
    intro d hd
    have hd2 := List.mem_of_mem_take hd
    obtain ⟨d0, hd0, he⟩ := addIdAux_mem [reqStrArg, restStrArg] 0 d hd2
    rcases List.mem_cons.mp hd0 with h0 | hd0
    · rw [he, h0]
      exact ⟨rfl, fun x => ⟨x, rfl⟩⟩
    rcases List.mem_cons.mp hd0 with h0 | hd0
    · rw [he, h0]
      exact ⟨rfl, fun x => ⟨x, rfl⟩⟩
    · exact absurd hd0 (by simp)
  have hnum : numOptionalArgs (addIdToArgs [reqStrArg, restStrArg]) = -1 := rfl
  rw [validateArgs]
  simp only [hok]
  by_cases hm : (missingRequired [reqStrArg, restStrArg] tokens).isEmpty
  · rw [if_pos hm, if_neg (by rw [hnum]; simp)]
    rfl
  · rw [if_neg hm]
    rfl

/-- C6 counterexample: one required spec (a bounded definition list
with maximum one) and the two tokens empty-string and y, both of which
pass the parse stage; the claim then demands the unexpected-arguments
error, but the binder raises the missing-required-arguments error
instead, because the required slot bound the falsy empty string and
the required check runs before the excess check. -/
theorem claim_c6_counterexample :
    ([reqStrArg] : List ArgSpec).all (fun d => !d.rest) = true ∧
    ([reqStrArg] : List ArgSpec).length = 1 ∧
    ([JSVal.str "", .str "y"] : List JSVal).length = 2 ∧
    (bindStage [reqStrArg] [JSVal.str "", .str "y"]).2 = none ∧
    (validateArgs [reqStrArg] [JSVal.str "", .str "y"]).2.2
      = some (.requiredArgs [{ reqStrArg with id := 0 }]) ∧
    ((validateArgs [reqStrArg] [JSVal.str "", .str "y"]).2.2.map OErr.isUnexpectedArgs)
      = some false :=
  ⟨rfl, rfl, rfl, rfl, rfl, rfl⟩

/-- C6 as amended: for a definition list with no rest slot (bounded
maximum equal to its spec count) and a token list longer than that
maximum, provided every token passes the parse stage and every
required slot binds a truthy value, binding fails with the
unexpected-arguments error carrying exactly the values of the bound
array past the maximum, which are the original excess tokens
untouched; the returned array is the fully parsed array, whose first
positions hold the parsed values of their tokens. -/
theorem claim_c6_amended (defs : List ArgSpec) (args : List JSVal)
    (hnorest : ∀ d ∈ defs, d.rest = false)
    (hlong : defs.length < args.length)
    (hok : (bindStage defs args).2 = none)
    (hreq : ∀ i (h : i < defs.length), (defs.get ⟨i, h⟩).required = true →
      truthy (jsGet (boundArgs defs args) i) = true) :
    (validateArgs defs args).2.2
      = some (.unexpectedArgs ((boundArgs defs args).drop defs.length)) ∧
    (validateArgs defs args).2.1 = boundArgs defs args ∧
    (boundArgs defs args).drop defs.length = args.drop defs.length ∧
    (∀ t (h : t < defs.length), ∃ v,
      (defs.get ⟨t, h⟩).parse (jsGet args t) = .ok v ∧
      jsGet (boundArgs defs args) t = v) := by
  have hempty : missingRequired defs args = [] := by
    refine List.filter_eq_nil_iff.mpr ?_
    intro d hd
    obtain ⟨⟨t, ht⟩, hget⟩ := List.mem_iff_get.mp hd
    have ht' : t < defs.length := by
      have := ht
      rw [addIdToArgs_length] at this
      exact this
    rw [← hget, addIdToArgs_get defs t ht' ht]
    by_cases hr : (defs.get ⟨t, ht'⟩).required = true
    · simp only [Int.toNat_natCast, hr, hreq t ht' hr]
      simp
    · simp only [Bool.not_eq_true] at hr
      simp only [Int.toNat_natCast, hr]
      simp
  have hisEmpty : (missingRequired defs args).isEmpty = true := by
    rw [hempty]
    rfl
  have hnum : numOptionalArgs (addIdToArgs defs) = ((defs.length : Nat) : Int) := by
    rw [numOptionalArgs_no_rest _ (addIdToArgs_rest_all defs hnorest), addIdToArgs_length]
  have hbound : boundArgs defs args = (bindStage defs args).1 :=
    boundArgs_eq_of_ge defs args (by omega)
  have hblen : (boundArgs defs args).length = args.length := by
    rw [hbound, bindStage_length]
  have hcond : numOptionalArgs (addIdToArgs defs) ≠ -1 ∧
      numOptionalArgs (addIdToArgs defs) < ((boundArgs defs args).length : Int) := by
    rw [hnum, hblen]
    constructor
    · omega
    · exact_mod_cast hlong
  refine ⟨?_, validateArgs_arr_of_ok defs args hok, ?_, ?_⟩
  · rw [validateArgs]
    simp only [hok, hisEmpty]
    rw [if_pos hcond, hnum]
    simp
  · refine List.ext_get ?_ ?_
    · rw [List.length_drop, List.length_drop, hblen]
    · intro i ha hb
      have hia : defs.length + i < (boundArgs defs args).length := by
        rw [List.length_drop] at ha
        omega
      have hib : defs.length + i < args.length := by
        rw [List.length_drop, hblen] at ha
        omega
      have h1 : (List.drop defs.length (boundArgs defs args)).get ⟨i, ha⟩ =
          (boundArgs defs args).get ⟨defs.length + i, hia⟩ := by
        simp [List.get_eq_getElem]
      have h2 : (List.drop defs.length args).get ⟨i, hb⟩ =
          args.get ⟨defs.length + i, hib⟩ := by
        simp [List.get_eq_getElem]
      rw [h1, h2, ← jsGet_eq_get _ _ hia, ← jsGet_eq_get _ _ hib]
      exact boundArgs_frame_ge defs args (defs.length + i) (by omega)
  · intro t h
    obtain ⟨v, hv1, hv2⟩ := bindStage_ok_get defs args hok t h (by omega)
    exact ⟨v, hv1, by rw [boundArgs_get_supplied defs args t (by omega)]; exact hv2⟩

theorem claim_c6_amended_witness :
    (∀ d ∈ ([reqStrArg] : List ArgSpec), d.rest = false) ∧
    ([reqStrArg] : List ArgSpec).length < ([JSVal.str "x", .str "y"] : List JSVal).length ∧
    (bindStage [reqStrArg] [JSVal.str "x", .str "y"]).2 = none ∧
    ((validateArgs [reqStrArg] [JSVal.str "x", .str "y"]).2.2
       = some (.unexpectedArgs ((boundArgs [reqStrArg] [JSVal.str "x", .str "y"]).drop
           ([reqStrArg] : List ArgSpec).length)) ∧
     (validateArgs [reqStrArg] [JSVal.str "x", .str "y"]).2.1
       = boundArgs [reqStrArg] [JSVal.str "x", .str "y"] ∧
     (boundArgs [reqStrArg] [JSVal.str "x", .str "y"]).drop ([reqStrArg] : List ArgSpec).length
       = ([JSVal.str "x", .str "y"] : List JSVal).drop ([reqStrArg] : List ArgSpec).length ∧
     (∀ t (h : t < ([reqStrArg] : List ArgSpec).length), ∃ v,
       (([reqStrArg] : List ArgSpec).get ⟨t, h⟩).parse (jsGet [JSVal.str "x", .str "y"] t)
         = .ok v ∧
       jsGet (boundArgs [reqStrArg] [JSVal.str "x", .str "y"]) t = v)) := by
  have hnorest : ∀ d ∈ ([reqStrArg] : List ArgSpec), d.rest = false := by
    intro d hd
    rcases List.mem_cons.mp hd with h | hd
    · rw [h]; rfl
    · exact absurd hd (by simp)
  refine ⟨hnorest, by simp, rfl, ?_⟩
  refine claim_c6_amended [reqStrArg] [JSVal.str "x", .str "y"] hnorest (by simp) rfl ?_
  intro i h hr
  have hz : i = 0 := by simp at h; omega
  subst hz
  rfl
